import Mathlib

/-!
Shallow embedding of the `mcp-registry` compilation pipeline
(`src/scripts/fetcher.py`, `src/scripts/compiler.py`, `src/scripts/adder.py`).

Modelling conventions:
* Parsed JSON documents are modelled by `JValue`; Python dicts are ordered
  association lists (insertion order preserved, as in CPython).
* Python strings are Lean `String`s; where character-level reasoning is
  needed (`parse_name`, timestamp formatting) we work on `List Char`.
* Network and filesystem effects are modelled by explicit environments:
  `Network` records the responses of the registry HTTP API, `Env.fs` the
  parsed content of descriptor files (`Except` failure = missing file or
  unparsable JSON), `Env.fetch` the behaviour of the public-registry fetch
  (an `Except FetchError` mirroring the raised exception).
* Machine integers do not occur; all counts are `Nat`/`Int`.
-/

/-- A JSON value; objects are ordered association lists (CPython dicts). -/
inductive JValue where
  | str : String → JValue
  | num : Int → JValue
  | bool : Bool → JValue
  | null : JValue
  | arr : List JValue → JValue
  | obj : List (String × JValue) → JValue
deriving Repr

/-- First-match association-list lookup (Python dict lookup; keys are unique
in dicts produced by the code, so first match is the match). -/
def lookupPairs (kvs : List (String × JValue)) (k : String) : Option JValue :=
  match kvs with
  | [] => none
  | (k2, v) :: rest => if k2 = k then some v else lookupPairs rest k

/-- `d[k]` for an object, `none` otherwise. -/
def JValue.getKey : JValue → String → Option JValue
  | .obj kvs, k => lookupPairs kvs k
  | _, _ => none

/-- Python `k in d` for a dict `d` (`false` on non-objects; the code only
applies it to parsed JSON objects). -/
def JValue.hasKey (j : JValue) (k : String) : Bool :=
  (j.getKey k).isSome

/-- Python `d.get(k, "")` where the value is expected to be a string. -/
def getStrD (j : JValue) (k : String) : String :=
  match j.getKey k with
  | some (.str s) => s
  | _ => ""

/-- Python `d.get(k, {})` where the value is expected to be an object. -/
def getObjD (j : JValue) (k : String) : JValue :=
  match j.getKey k with
  | some v => v
  | none => .obj []

/-- Python `d[k] = v` on an ordered dict: overwrite in place when the key is
present (dict keys are unique, so the first occurrence is the occurrence),
append otherwise.  Also models `{**d, k: v}`. -/
def dictSet {α : Type} (d : List (String × α)) (k : String) (v : α) :
    List (String × α) :=
  match d with
  | [] => [(k, v)]
  | (k2, v2) :: rest => if k2 = k then (k, v) :: rest else (k2, v2) :: dictSet rest k v

/-- `{**d, k: v}` at the `JValue` level (non-objects are returned unchanged;
the code only spreads dicts). -/
def JValue.setKey : JValue → String → JValue → JValue
  | .obj kvs, k, v => .obj (dictSet kvs k v)
  | j, _, _ => j

/-- `scripts/fetcher.py` lines 20-26: a server entry from a registry. -/
structure ServerEntry where
  name : String
  version : String
  data : JValue
  source : String
deriving Repr

/-- `scripts/fetcher.py` lines 10-17: error during registry fetch. -/
structure FetchError where
  registry_name : String
  message : String
deriving Repr

/-- `FetchError.__str__` (`scripts/fetcher.py` lines 16-17). -/
def fetchErrorStr (e : FetchError) : String :=
  e.registry_name ++ ": " ++ e.message

/-- The `servers` field of a remote registry config: the literal `"*"` or a
mapping from name-or-author-wildcard to version (`scripts/fetcher.py`
lines 90-93). -/
inductive ServersConfig where
  | all : ServersConfig
  | map : List (String × String) → ServersConfig

/-- A remote (non-private) registry configuration (`scripts/fetcher.py`
lines 95-98). -/
structure PubRegistry where
  name : String
  url : String
  servers : ServersConfig
  exclude : List String

/-- The registry HTTP API, as observed by a successful run:
`serverList` is the sequence of documents streamed by `fetch_server_list`
(pagination flattened), `serverVersion nm v` the response of
`fetch_server_version` for server `nm` at version `v`.  Transport failures
are modelled at the `compile_registry` level via `Env.fetch`. -/
structure Network where
  serverList : List JValue
  serverVersion : String → String → JValue

/-- One HTTP request issued by `fetch_from_public_registry`: a full listing
stream (`fetch_server_list`) or a version resolution
(`fetch_server_version nm v`). -/
inductive Request where
  | listAll : Request
  | version (nm v : String) : Request
deriving Repr, DecidableEq

/-- Python `s.startswith(p)`, at the character level. -/
def strStartsWith (s p : String) : Bool :=
  p.data.isPrefixOf s.data

/-- Python `s.endswith(p)`, at the character level. -/
def strEndsWith (s p : String) : Bool :=
  p.data.isSuffixOf s.data

/-- `scripts/fetcher.py` lines 71-80: `_parse_author_pattern`.
`"microsoft/*" -> some "microsoft/"` (the key minus its final `*`, Python
`key[:-1]`), `none` for keys not ending in `/*`. -/
def parse_author_pattern (key : String) : Option String :=
  if strEndsWith key "/*" then some ⟨key.data.dropLast⟩ else none

/-- `scripts/fetcher.py` lines 119-128: partition the `servers` mapping into
author-wildcard patterns (prefix, version) and exact names (name, version),
preserving insertion order.  `if prefix:` in the source is Python truthiness;
a key ending in `/*` always yields a non-empty prefix. -/
def splitPatterns : List (String × String) → List (String × String) × List (String × String)
  | [] => ([], [])
  | (k, v) :: rest =>
    let (ps, es) := splitPatterns rest
    match parse_author_pattern k with
    | some p => if p ≠ "" then ((p, v) :: ps, es) else (ps, (k, v) :: es)
    | none => (ps, (k, v) :: es)

/-- `server_data.get("server", {}).get("name", "")`. -/
def serverNameOf (d : JValue) : String :=
  getStrD (getObjD d "server") "name"

/-- `server_data.get("server", {}).get("version", "")`. -/
def serverVersionOf (d : JValue) : String :=
  getStrD (getObjD d "server") "version"

/-- The `for prefix, version in patterns.items(): if server_name.startswith(prefix): ...; break`
loop (`scripts/fetcher.py` lines 137-150): the first pattern whose prefix the
name starts with, if any, yielding that pattern's version. -/
def firstMatch (pats : List (String × String)) (nm : String) : Option String :=
  match pats with
  | [] => none
  | (p, v) :: rest => if strStartsWith nm p then some v else firstMatch rest nm

/-- The entry built for a streamed server matched by a wildcard pattern
(`scripts/fetcher.py` lines 139-149). -/
def mkVersionedEntry (net : Network) (src nm v : String) : ServerEntry :=
  let vd := net.serverVersion nm v
  ⟨nm, serverVersionOf vd, vd, src⟩

/-- `scripts/fetcher.py` lines 103-117: the `servers == "*"` branch, skipping
names in `exclude`. -/
def allPass (src : String) (excl : List String) : List JValue → List ServerEntry
  | [] => []
  | d :: rest =>
    let info := getObjD d "server"
    let nm := getStrD info "name"
    let es := allPass src excl rest
    if nm ∈ excl then es
    else ⟨nm, getStrD info "version", d, src⟩ :: es

/-- `scripts/fetcher.py` lines 131-150: the author-wildcard pass.  Streams the
listing; for each streamed document whose name starts with a registered
prefix, issues one version request (first matching pattern wins, then
`break`).  Returns the produced entries and the version requests issued, in
stream order. -/
def patternPass (net : Network) (src : String) (pats : List (String × String)) :
    List JValue → List ServerEntry × List Request
  | [] => ([], [])
  | d :: rest =>
    let nm := serverNameOf d
    let (es, rs) := patternPass net src pats rest
    match firstMatch pats nm with
    | some v => (mkVersionedEntry net src nm v :: es, .version nm v :: rs)
    | none => (es, rs)

/-- `scripts/fetcher.py` lines 152-167: the exact-name pass.  Skips names in
`exclude`; otherwise issues one version request per configured name. -/
def exactPass (net : Network) (src : String) (excl : List String) :
    List (String × String) → List ServerEntry × List Request
  | [] => ([], [])
  | (nm, v) :: rest =>
    let (es, rs) := exactPass net src excl rest
    if nm ∈ excl then (es, rs)
    else
      let vd := net.serverVersion nm v
      (⟨nm, serverVersionOf vd, vd, src⟩ :: es, .version nm v :: rs)

/-- `scripts/fetcher.py` lines 83-172: `fetch_from_public_registry` over a
`Network` of successful responses, instrumented with the list of requests
issued.  The `if patterns:` guard means the listing is streamed exactly when
at least one wildcard key exists. -/
def fetch_from_public_registry (net : Network) (cfg : PubRegistry) :
    List ServerEntry × List Request :=
  match cfg.servers with
  | .all => (allPass cfg.name cfg.exclude net.serverList, [.listAll])
  | .map m =>
    let pats := (splitPatterns m).1
    let exacts := (splitPatterns m).2
    let pr :=
      if pats.isEmpty then ([], [])
      else
        let r := patternPass net cfg.name pats net.serverList
        (r.1, Request.listAll :: r.2)
    let er := exactPass net cfg.name cfg.exclude exacts
    (pr.1 ++ er.1, pr.2 ++ er.2)

/-- `scripts/compiler.py` lines 12-15: an error during compilation. -/
structure CompileError where
  message : String
deriving Repr, DecidableEq

/-- `scripts/compiler.py` lines 18-26: result of compilation. -/
structure CompileResult where
  servers : List ServerEntry
  errors : List CompileError
deriving Repr

/-- `CompileResult.is_success` (`scripts/compiler.py` lines 24-26). -/
def CompileResult.is_success (r : CompileResult) : Bool :=
  r.errors.length = 0

/-- One entry of `registry_config["registries"]`: a private registry with its
declared descriptor paths, or a remote one (`reg.get("type") == "private"`
branches in `scripts/compiler.py` lines 85-106; any non-private type is
fetched as a public registry). -/
inductive RegistryDecl where
  | priv (nm : String) (paths : List String) : RegistryDecl
  | pub (cfg : PubRegistry) : RegistryDecl

/-- The effectful context of `compile_registry`: `fetch` is the behaviour of
`fetch_from_public_registry` for each remote config (`.error` = the raised
`FetchError`), `fs` maps a descriptor path (relative to `root_dir`) to its
parsed JSON (`.error` = `open`/`json.load` failure, carrying the exception
text). -/
structure Env where
  fetch : PubRegistry → Except FetchError (List ServerEntry)
  fs : String → Except String JValue

/-- `scripts/compiler.py` lines 29-44: `load_private_server`; builds a
flattened-format entry from the parsed file. -/
def load_private_server (env : Env) (server_path registry_name : String) :
    Except String ServerEntry :=
  match env.fs server_path with
  | .error e => .error e
  | .ok data => .ok ⟨getStrD data "name", getStrD data "version", data, registry_name⟩

/-- The duplicate-name message of `check_conflicts`
(`scripts/compiler.py` lines 57-60). -/
def dupMessage (nm s1 s2 : String) : String :=
  "Duplicate server \x27" ++ nm ++ "\x27: " ++
    "found in \x27" ++ s1 ++ "\x27 and \x27" ++ s2 ++ "\x27"

/-- First-match association-list lookup for `ServerEntry` values (the `seen`
dict of `check_conflicts` / the dedup dict of `compile_registry`). -/
def lookupEntry (d : List (String × ServerEntry)) (k : String) : Option ServerEntry :=
  match d with
  | [] => none
  | (k2, v) :: rest => if k2 = k then some v else lookupEntry rest k

/-- Loop body of `check_conflicts` (`scripts/compiler.py` lines 52-63):
`seen` maps a name to the first entry seen with it; a repeated name is an
error exactly when either entry has source `"private"`, and on a repeat
`seen` is left unchanged. -/
def check_conflicts_go (seen : List (String × ServerEntry)) :
    List ServerEntry → List CompileError
  | [] => []
  | s :: rest =>
    match lookupEntry seen s.name with
    | some existing =>
      if s.source = "private" ∨ existing.source = "private" then
        ⟨dupMessage s.name existing.source s.source⟩ :: check_conflicts_go seen rest
      else check_conflicts_go seen rest
    | none => check_conflicts_go (dictSet seen s.name s) rest

/-- `scripts/compiler.py` lines 47-65: `check_conflicts`. -/
def check_conflicts (servers : List ServerEntry) : List CompileError :=
  check_conflicts_go [] servers

/-- The per-path loop of the private branch (`scripts/compiler.py`
lines 88-98): a failing path contributes one load error and the loop keeps
scanning; a successful one contributes its entry. -/
def load_private_paths (env : Env) (regName : String) :
    List String → List ServerEntry × List CompileError
  | [] => ([], [])
  | relPath :: rest =>
    let (es, errs) := load_private_paths env regName rest
    match load_private_server env relPath regName with
    | .ok s => (s :: es, errs)
    | .error e => (es, ⟨"Failed to load " ++ relPath ++ ": " ++ e⟩ :: errs)

/-- The registry walk of `compile_registry` (`scripts/compiler.py`
lines 85-106), threading the `all_servers` and `result.errors` accumulators.
`.error errs` models the early `return result` on a `FetchError` (the final
error list, with `result.servers` still empty). -/
def compile_loop (env : Env) :
    List RegistryDecl → List ServerEntry → List CompileError →
    Except (List CompileError) (List ServerEntry × List CompileError)
  | [], allServers, errs => .ok (allServers, errs)
  | .priv nm paths :: rest, allServers, errs =>
    let (es, les) := load_private_paths env nm paths
    compile_loop env rest (allServers ++ es) (errs ++ les)
  | .pub cfg :: rest, allServers, errs =>
    match env.fetch cfg with
    | .ok servers => compile_loop env rest (allServers ++ servers) errs
    | .error fe => .error (errs ++ [⟨fetchErrorStr fe⟩])

/-- The dedup dict built at `scripts/compiler.py` lines 114-116:
`seen[server.name] = server` over the accumulated list. -/
def dedupeDict (servers : List ServerEntry) : List (String × ServerEntry) :=
  servers.foldl (fun d s => dictSet d s.name s) []

/-- `list(seen.values())` (`scripts/compiler.py` line 117): last write wins,
first-occurrence order. -/
def dedupe_last_wins (servers : List ServerEntry) : List ServerEntry :=
  (dedupeDict servers).map Prod.snd

/-- `scripts/compiler.py` lines 68-119: `compile_registry`.  After the walk,
conflict errors are appended; the deduplicated servers are exposed only when
the error list is empty. -/
def compile_registry (env : Env) (regs : List RegistryDecl) : CompileResult :=
  match compile_loop env regs [] [] with
  | .error errs => ⟨[], errs⟩
  | .ok (allServers, errs) =>
    let errs2 := errs ++ check_conflicts allServers
    if errs2.isEmpty then ⟨dedupe_last_wins allServers, errs2⟩ else ⟨[], errs2⟩

/-- A UTC wall-clock instant at second precision, modelling the value of
`datetime.now(UTC)` observed by one run of `write_compiled_registry`. -/
structure UTCTime where
  year : Nat
  month : Nat
  day : Nat
  hour : Nat
  minute : Nat
  second : Nat

/-- The decimal digit character for `n % 10`. -/
def digitChar (n : Nat) : Char :=
  match n % 10 with
  | 0 => '0' | 1 => '1' | 2 => '2' | 3 => '3' | 4 => '4'
  | 5 => '5' | 6 => '6' | 7 => '7' | 8 => '8' | _ => '9'

/-- Decimal digits of a natural number, most significant first. -/
def digitsOf (n : Nat) : List Char :=
  if h : n < 10 then [digitChar n]
  else digitsOf (n / 10) ++ [digitChar n]
termination_by n
decreasing_by exact Nat.div_lt_self (by omega) (by omega)

/-- `%02d` rendering (as `datetime.isoformat` uses for month through second). -/
def pad2 (n : Nat) : List Char :=
  if n < 10 then '0' :: digitsOf n else digitsOf n

/-- `%04d` rendering of the year. -/
def pad4 (n : Nat) : List Char :=
  List.replicate (4 - (digitsOf n).length) '0' ++ digitsOf n

/-- `datetime.isoformat(timespec="seconds")` on an aware UTC datetime, minus
its trailing `+00:00` offset: `YYYY-MM-DDTHH:MM:SS`. -/
def isoCore (t : UTCTime) : List Char :=
  pad4 t.year ++ '-' :: pad2 t.month ++ '-' :: pad2 t.day ++
    'T' :: pad2 t.hour ++ ':' :: pad2 t.minute ++ ':' :: pad2 t.second

/-- The `+00:00` UTC offset suffix produced by `isoformat` on an aware UTC
datetime. -/
def plusOffset : List Char := ['+', '0', '0', ':', '0', '0']

/-- Python `str.replace(pat, rep)` on character lists: scan left to right,
replacing each (non-overlapping) occurrence of the non-empty pattern. -/
def replaceAll (pat rep : List Char) : List Char → List Char
  | [] => []
  | c :: cs =>
    if h : pat ≠ [] ∧ pat.isPrefixOf (c :: cs) then
      rep ++ replaceAll pat rep ((c :: cs).drop pat.length)
    else c :: replaceAll pat rep cs
termination_by l => l.length
decreasing_by
  · simp only [List.length_drop]
    have : 1 ≤ pat.length := by
      cases hp : pat with
      | nil => exact absurd hp h.1
      | cons a l => simp
    simp only [List.length_cons]
    omega
  · simp

/-- `scripts/compiler.py` line 130: the characters of
`datetime.now(UTC).isoformat(timespec="seconds").replace("+00:00", "Z")`. -/
def timestampChars (t : UTCTime) : List Char :=
  replaceAll plusOffset ['Z'] (isoCore t ++ plusOffset)

/-- The timestamp string `now` of `write_compiled_registry`. -/
def timestampZ (t : UTCTime) : String :=
  ⟨timestampChars t⟩

/-- `scripts/compiler.py` lines 132-154: `wrap_server`.  Data already wrapped
(has a `server` key) is passed through with `_source` set; flattened data is
wrapped under `server` with a `_meta` block stamped with `now`. -/
def wrap_server (registry_name now : String) (server : ServerEntry) : JValue :=
  if server.data.hasKey "server" then
    server.data.setKey "_source" (.str server.source)
  else
    .obj [("server", server.data),
          ("_meta", .obj [(registry_name, .obj
            [("status", .str "active"),
             ("publishedAt", .str now),
             ("updatedAt", .str now),
             ("isLatest", .bool true)])]),
          ("_source", .str server.source)]

/-- `scripts/compiler.py` lines 122-164: the document written by
`write_compiled_registry` (the file write itself is outside the model); `t`
is the wall-clock instant read once at line 130. -/
def write_compiled_registry (t : UTCTime) (registry_name : String)
    (servers : List ServerEntry) : JValue :=
  let now := timestampZ t
  .obj [("servers", .arr (servers.map (wrap_server registry_name now))),
        ("metadata", .obj [("count", .num servers.length)])]

/-- Python `str.strip()` whitespace (the ASCII part; `\x0b` = vertical tab,
`\x0c` = form feed). -/
def pyIsSpace (c : Char) : Bool :=
  c = ' ' ∨ c = '\t' ∨ c = '\n' ∨ c = '\r' ∨ c = '\x0b' ∨ c = '\x0c'

/-- Python `str.strip()` on character lists. -/
def pyStrip (s : List Char) : List Char :=
  ((s.dropWhile pyIsSpace).reverse.dropWhile pyIsSpace).reverse

/-- Python `name.split("/", 1)`: the part before the first `/` and the part
after it, `none` when the string has no `/`. -/
def splitFirstSlash : List Char → Option (List Char × List Char)
  | [] => none
  | c :: cs =>
    if c = '/' then some ([], cs)
    else
      match splitFirstSlash cs with
      | some (a, b) => some (c :: a, b)
      | none => none

/-- `scripts/adder.py` lines 23-31: `parse_name`, on character lists
(`.error` models the raised `ValueError`).  `"/" not in name` is exactly
`splitFirstSlash` returning `none`. -/
def parse_name (nm : List Char) : Except String (List Char × List Char) :=
  match splitFirstSlash nm with
  | none => .error "Name must be in author/name format"
  | some (a, b) =>
    let author := pyStrip a
    let server_name := pyStrip b
    if author = [] ∨ server_name = [] then .error "Both author and name required"
    else .ok (author, server_name)

/-- Reconciler model following the specification text (§4.3) word for word:
scan the entries in order keeping the list of entries already scanned; on a
repeated name (its first occurrence found among the scanned prefix), emit a
conflict exactly when the new or the first-recorded entry has source
`"private"`, with a message naming both sources; otherwise no error. -/
def conflictsSpecGo (pre : List ServerEntry) : List ServerEntry → List CompileError
  | [] => []
  | s :: rest =>
    match pre.find? (fun t => t.name == s.name) with
    | some ex =>
      if s.source = "private" ∨ ex.source = "private" then
        ⟨dupMessage s.name ex.source s.source⟩ :: conflictsSpecGo (pre ++ [s]) rest
      else conflictsSpecGo (pre ++ [s]) rest
    | none => conflictsSpecGo (pre ++ [s]) rest

/-- The reconciliation rule as the spec states it, to be compared with
`check_conflicts` (the translation of the source). -/
def check_conflicts_spec_model (servers : List ServerEntry) : List CompileError :=
  conflictsSpecGo [] servers

/-! Concrete inputs used to instantiate the theorems below. -/

/-- A wrapped server document as the registry listing streams them. -/
def docOf (nm : String) : JValue :=
  .obj [("server", .obj [("name", .str nm), ("version", .str "1.0")])]

/-- A network whose listing holds `acme/foo`, `acme/bar`, `other/baz` and
whose version endpoint echoes the requested name and version. -/
def netAcme : Network :=
  ⟨[docOf "acme/foo", docOf "acme/bar", docOf "other/baz"],
   fun nm v => .obj [("server", .obj [("name", .str nm), ("version", .str v)])]⟩

/-- Remote registry selecting every `acme/`-authored server. -/
def cfgAcme : PubRegistry :=
  ⟨"pub", "https://registry.example", .map [("acme/*", "latest")], []⟩

/-- Same as `cfgAcme` but with `acme/foo` on the exclude list. -/
def cfgAcmeExcl : PubRegistry :=
  ⟨"pub", "https://registry.example", .map [("acme/*", "latest")], ["acme/foo"]⟩

/-- An environment whose remote fetches all fail and whose files are all
missing. -/
def envFetchFail : Env :=
  ⟨fun _ => .error ⟨"pub", "connection refused"⟩, fun _ => .error "missing"⟩

/-- An environment with one readable descriptor file at
`mcps/good/server.json` and every other path failing; remote fetches
succeed with a single `w/x` entry. -/
def envGoodBad : Env :=
  ⟨fun cfg => .ok [⟨"w/x", "1.0", docOf "w/x", cfg.name⟩],
   fun p =>
     if p = "mcps/good/server.json" then
       .ok (.obj [("name", .str "g/s"), ("version", .str "2.0")])
     else .error "No such file"⟩

/-- A flattened private entry (no `server` key in its data). -/
def entryFlat : ServerEntry :=
  ⟨"g/s", "2.0", .obj [("name", .str "g/s"), ("version", .str "2.0")], "private"⟩

/-- An already-wrapped public entry (its data has a `server` key). -/
def entryWrapped : ServerEntry :=
  ⟨"w/x", "1.0", docOf "w/x", "pub"⟩

/-- A fixed compilation instant. -/
def tW : UTCTime := ⟨2026, 10, 12, 3, 4, 5⟩

/-! ### Association-list lemmas -/

theorem lookupEntry_append (d1 d2 : List (String × ServerEntry)) (k : String) :
    lookupEntry (d1 ++ d2) k = (lookupEntry d1 k).or (lookupEntry d2 k) := by
  induction d1 with
  | nil => simp [lookupEntry]
  | cons p rest ih =>
    obtain ⟨k2, v⟩ := p
    by_cases h : k2 = k <;> simp [lookupEntry, h, ih]

theorem lookupEntry_isSome (d : List (String × ServerEntry)) (k : String) :
    (lookupEntry d k).isSome ↔ k ∈ d.map Prod.fst := by
  induction d with
  | nil => simp [lookupEntry]
  | cons p rest ih =>
    obtain ⟨k2, v⟩ := p
    by_cases h : k2 = k
    · simp [lookupEntry, h]
    · simp only [lookupEntry, if_neg h, List.map_cons, List.mem_cons, ih]
      constructor
      · exact Or.inr
      · rintro (he | hm)
        · exact absurd he.symm h
        · exact hm

theorem lookupEntry_eq_none (d : List (String × ServerEntry)) (k : String) :
    lookupEntry d k = none ↔ k ∉ d.map Prod.fst := by
  rw [← lookupEntry_isSome, Option.not_isSome_iff_eq_none]

theorem lookupEntry_dictSet (d : List (String × ServerEntry)) (k : String)
    (v : ServerEntry) (k' : String) :
    lookupEntry (dictSet d k v) k' = if k = k' then some v else lookupEntry d k' := by
  induction d with
  | nil => simp [dictSet, lookupEntry]
  | cons p rest ih =>
    obtain ⟨k2, v2⟩ := p
    by_cases h2 : k2 = k
    · subst h2
      by_cases hk : k2 = k'
      · simp [dictSet, lookupEntry, hk]
      · simp [dictSet, lookupEntry, hk]
    · by_cases hk : k2 = k'
      · have h1 : ¬ k = k' := fun hh => h2 (hk.trans hh.symm)
        have h2' : ¬ k' = k := fun hh => h2 (hk.trans hh)
        simp [dictSet, lookupEntry, h2, hk, h1, h2']
      · simp [dictSet, lookupEntry, h2, hk, ih]

theorem dictSet_keys (d : List (String × ServerEntry)) (k : String) (v : ServerEntry) :
    (dictSet d k v).map Prod.fst =
      if k ∈ d.map Prod.fst then d.map Prod.fst else d.map Prod.fst ++ [k] := by
  induction d with
  | nil => simp [dictSet]
  | cons p rest ih =>
    obtain ⟨k2, v2⟩ := p
    by_cases h2 : k2 = k
    · subst h2
      simp [dictSet]
    · have hne : ¬ k = k2 := fun hh => h2 hh.symm
      by_cases hm : k ∈ rest.map Prod.fst
      · simp [dictSet, h2, ih, hm, hne]
      · simp [dictSet, h2, ih, hm, hne]

/-! ### Compilation-walk lemmas -/

theorem load_private_paths_append (env : Env) (n : String) (xs ys : List String) :
    load_private_paths env n (xs ++ ys) =
      ((load_private_paths env n xs).1 ++ (load_private_paths env n ys).1,
       (load_private_paths env n xs).2 ++ (load_private_paths env n ys).2) := by
  induction xs with
  | nil => simp [load_private_paths]
  | cons p rest ih =>
    simp only [List.cons_append, load_private_paths, ih]
    cases load_private_server env p n <;> simp [ih]

theorem compile_loop_append (env : Env) (pre rest : List RegistryDecl)
    (a : List ServerEntry) (e : List CompileError) :
    compile_loop env (pre ++ rest) a e =
      match compile_loop env pre a e with
      | .error errs => .error errs
      | .ok (a', e') => compile_loop env rest a' e' := by
  induction pre generalizing a e with
  | nil => simp [compile_loop]
  | cons r pre ih =>
    cases r with
    | priv nm paths => simp [compile_loop, ih]
    | pub cfg =>
      simp only [List.cons_append, compile_loop]
      cases env.fetch cfg with
      | ok servers => simp [ih]
      | error fe => rfl

theorem compile_loop_error_ne_nil (env : Env) (regs : List RegistryDecl)
    (a : List ServerEntry) (e : List CompileError) (errs : List CompileError)
    (h : compile_loop env regs a e = .error errs) : errs ≠ [] := by
  induction regs generalizing a e with
  | nil => simp [compile_loop] at h
  | cons r rest ih =>
    cases r with
    | priv nm paths =>
      simp only [compile_loop] at h
      exact ih _ _ h
    | pub cfg =>
      simp only [compile_loop] at h
      cases hf : env.fetch cfg with
      | ok servers =>
        rw [hf] at h
        exact ih _ _ h
      | error fe =>
        rw [hf] at h
        cases h
        simp

/-- Claim C1 helper: the result of a compilation aborted by a fetch error. -/
theorem compile_registry_of_loop_error (env : Env) (regs : List RegistryDecl)
    (errs : List CompileError) (h : compile_loop env regs [] [] = .error errs) :
    compile_registry env regs = ⟨[], errs⟩ := by
  unfold compile_registry
  rw [h]

/-- C1: when fetching a remote registry fails, `compile_registry` appends the
fetch error to the error list and returns at once: the registries after the
failing one contribute nothing (the result equals the one computed with them
removed), and the returned result carries no entries, discarding everything
accumulated before the failure. -/
theorem compile_fetch_error_fail_fast (env : Env) (pre post : List RegistryDecl)
    (cfg : PubRegistry) (fe : FetchError) (allS : List ServerEntry)
    (errs : List CompileError)
    (hpre : compile_loop env pre [] [] = .ok (allS, errs))
    (hfetch : env.fetch cfg = .error fe) :
    compile_registry env (pre ++ RegistryDecl.pub cfg :: post) =
      ⟨[], errs ++ [⟨fetchErrorStr fe⟩]⟩ ∧
    compile_registry env (pre ++ RegistryDecl.pub cfg :: post) =
      compile_registry env (pre ++ [RegistryDecl.pub cfg]) := by
  have hloop : ∀ rest : List RegistryDecl,
      compile_loop env (pre ++ RegistryDecl.pub cfg :: rest) [] [] =
        .error (errs ++ [⟨fetchErrorStr fe⟩]) := by
    intro rest
    rw [compile_loop_append, hpre]
    simp [compile_loop, hfetch]
  refine ⟨compile_registry_of_loop_error _ _ _ (hloop post), ?_⟩
  rw [compile_registry_of_loop_error _ _ _ (hloop post),
    compile_registry_of_loop_error _ _ _ (hloop [])]

/-- Witness for C1 at a concrete input: with every fetch failing, a remote
registry followed by another remote registry aborts with exactly the fetch
error and no entries, and the trailing registry is never reflected in the
result. -/
theorem compile_fetch_error_fail_fast_witness :
    compile_registry envFetchFail
        ([] ++ RegistryDecl.pub cfgAcme :: [RegistryDecl.pub cfgAcmeExcl]) =
      ⟨[], [] ++ [⟨fetchErrorStr ⟨"pub", "connection refused"⟩⟩]⟩ ∧
    compile_registry envFetchFail
        ([] ++ RegistryDecl.pub cfgAcme :: [RegistryDecl.pub cfgAcmeExcl]) =
      compile_registry envFetchFail ([] ++ [RegistryDecl.pub cfgAcme]) :=
  compile_fetch_error_fail_fast envFetchFail [] [RegistryDecl.pub cfgAcmeExcl]
    cfgAcme ⟨"pub", "connection refused"⟩ [] [] rfl rfl

/-- C4: a failing private descriptor path is non-fatal: the path list with the
failing path removed yields the same entries, the failing path contributes
exactly one load error placed between the errors of the surrounding paths
(so every remaining path is still processed), and the walk always continues
to the registries after the private one. -/
theorem compile_load_error_keeps_scanning (env : Env) (n p msg : String)
    (pre post : List String) (a : List ServerEntry) (e : List CompileError)
    (rest : List RegistryDecl) (hp : env.fs p = .error msg) :
    (load_private_paths env n (pre ++ p :: post)).1 =
      (load_private_paths env n (pre ++ post)).1 ∧
    (load_private_paths env n (pre ++ p :: post)).2 =
      (load_private_paths env n pre).2 ++
        ⟨"Failed to load " ++ p ++ ": " ++ msg⟩ :: (load_private_paths env n post).2 ∧
    compile_loop env (RegistryDecl.priv n (pre ++ p :: post) :: rest) a e =
      compile_loop env rest (a ++ (load_private_paths env n (pre ++ p :: post)).1)
        (e ++ (load_private_paths env n (pre ++ p :: post)).2) := by
  have hload : load_private_server env p n = .error msg := by
    simp [load_private_server, hp]
  have hsingle : load_private_paths env n [p] =
      ([], [⟨"Failed to load " ++ p ++ ": " ++ msg⟩]) := by
    simp [load_private_paths, hload]
  refine ⟨?_, ?_, ?_⟩
  · rw [show pre ++ p :: post = pre ++ [p] ++ post by simp,
      load_private_paths_append, load_private_paths_append,
      load_private_paths_append, hsingle]
    simp
  · rw [show pre ++ p :: post = pre ++ [p] ++ post by simp,
      load_private_paths_append, load_private_paths_append, hsingle]
    simp
  · simp [compile_loop]

/-- Witness for C4 at a concrete input: one good path, the failing
`mcps/bad/server.json`, then the good path again; the bad path adds one load
error, both good paths still load, and the walk proceeds past the private
registry. -/
theorem compile_load_error_keeps_scanning_witness :
    (load_private_paths envGoodBad "private"
        (["mcps/good/server.json"] ++ "mcps/bad/server.json" ::
          ["mcps/good/server.json"])).1 =
      (load_private_paths envGoodBad "private"
        (["mcps/good/server.json"] ++ ["mcps/good/server.json"])).1 ∧
    (load_private_paths envGoodBad "private"
        (["mcps/good/server.json"] ++ "mcps/bad/server.json" ::
          ["mcps/good/server.json"])).2 =
      (load_private_paths envGoodBad "private" ["mcps/good/server.json"]).2 ++
        ⟨"Failed to load " ++ "mcps/bad/server.json" ++ ": " ++ "No such file"⟩ ::
          (load_private_paths envGoodBad "private" ["mcps/good/server.json"]).2 ∧
    compile_loop envGoodBad
        (RegistryDecl.priv "private"
          (["mcps/good/server.json"] ++ "mcps/bad/server.json" ::
            ["mcps/good/server.json"]) :: [RegistryDecl.pub cfgAcme]) [] [] =
      compile_loop envGoodBad [RegistryDecl.pub cfgAcme]
        ([] ++ (load_private_paths envGoodBad "private"
          (["mcps/good/server.json"] ++ "mcps/bad/server.json" ::
            ["mcps/good/server.json"])).1)
        ([] ++ (load_private_paths envGoodBad "private"
          (["mcps/good/server.json"] ++ "mcps/bad/server.json" ::
            ["mcps/good/server.json"])).2) :=
  compile_load_error_keeps_scanning envGoodBad "private" "mcps/bad/server.json"
    "No such file" ["mcps/good/server.json"] ["mcps/good/server.json"] [] []
    [RegistryDecl.pub cfgAcme] rfl

/-- C10: a compilation whose error list is non-empty exposes no entries:
whether the walk aborted on a fetch error or finished with load or conflict
errors, the returned server list is empty. -/
theorem compile_errors_imply_no_servers (env : Env) (regs : List RegistryDecl)
    (h : (compile_registry env regs).errors ≠ []) :
    (compile_registry env regs).servers = [] := by
  unfold compile_registry at h ⊢
  cases hl : compile_loop env regs [] [] with
  | error errs => simp
  | ok pr =>
    obtain ⟨allS, errs⟩ := pr
    rw [hl] at h
    simp only at h ⊢
    by_cases he : ((errs ++ check_conflicts allS).isEmpty : Bool) = true
    · rw [if_pos he] at h
      simp only [List.isEmpty_iff] at he
      exact absurd he h
    · rw [if_neg he]

/-- Witness for C10 at a concrete input: a failed fetch leaves a non-empty
error list and the theorem yields an empty server list. -/
theorem compile_errors_imply_no_servers_witness :
    (compile_registry envFetchFail [RegistryDecl.pub cfgAcme]).servers = [] :=
  compile_errors_imply_no_servers envFetchFail [RegistryDecl.pub cfgAcme]
    (by simp [compile_registry, compile_loop, envFetchFail])

/-! ### Reconciler: the scan versus the specification wording -/

theorem check_conflicts_go_eq_spec (l : List ServerEntry) :
    ∀ (seen : List (String × ServerEntry)) (pre : List ServerEntry),
      (∀ nm, lookupEntry seen nm = pre.find? (fun t => t.name == nm)) →
      check_conflicts_go seen l = conflictsSpecGo pre l := by
  induction l with
  | nil =>
    intro seen pre _
    rfl
  | cons s rest ih =>
    intro seen pre hrel
    have hs := hrel s.name
    cases hf : pre.find? (fun t => t.name == s.name) with
    | some ex =>
      rw [hf] at hs
      have hrel' : ∀ nm,
          lookupEntry seen nm = (pre ++ [s]).find? (fun t => t.name == nm) := by
        intro nm
        rw [List.find?_append, ← hrel nm]
        cases hn : pre.find? (fun t => t.name == nm) with
        | some t =>
          rw [hrel nm, hn]
          rfl
        | none =>
          rw [hrel nm, hn, Option.none_or]
          by_cases he : s.name = nm
          · rw [← he] at hn
            rw [hn] at hf
            cases hf
          · have hb : (s.name == nm) = false := by simp [he]
            simp [List.find?, hb]
      simp only [check_conflicts_go, conflictsSpecGo, hs, hf]
      rw [ih seen (pre ++ [s]) hrel']
    | none =>
      rw [hf] at hs
      have hrel' : ∀ nm,
          lookupEntry (dictSet seen s.name s) nm =
            (pre ++ [s]).find? (fun t => t.name == nm) := by
        intro nm
        rw [lookupEntry_dictSet, List.find?_append]
        by_cases he : s.name = nm
        · subst he
          rw [hrel s.name, hf, if_pos rfl, Option.none_or]
          simp [List.find?]
        · rw [if_neg he, hrel nm]
          cases hn : pre.find? (fun t => t.name == nm) with
          | some t => rfl
          | none =>
            have hb : (s.name == nm) = false := by simp [he]
            simp [List.find?, hb]
      simp only [check_conflicts_go, conflictsSpecGo, hs, hf]
      exact ih _ _ hrel'

/-- C2: `check_conflicts` is exactly the reconciliation rule of the spec: a
repeated name conflicts iff the new or the first-recorded entry has source
`"private"` (two non-private sources never conflict), and the duplicate
message names both entries' sources (each source string occurs verbatim in
the message, in order). -/
theorem check_conflicts_iff_private (servers : List ServerEntry) (nm a b : String) :
    check_conflicts servers = check_conflicts_spec_model servers ∧
    (∃ c1 c2 c3, (dupMessage nm a b).data =
      c1 ++ a.data ++ c2 ++ b.data ++ c3) := by
  constructor
  · exact check_conflicts_go_eq_spec servers [] []
      (fun nm2 => by simp [lookupEntry, List.find?])
  · refine ⟨("Duplicate server \x27" ++ nm ++ "\x27: " ++ "found in \x27").data,
      ("\x27 and \x27").data, ("\x27").data, ?_⟩
    simp [dupMessage, String.data_append, List.append_assoc]

/-! ### Name parsing -/

theorem splitFirstSlash_eq_none (s : List Char) :
    splitFirstSlash s = none ↔ '/' ∉ s := by
  induction s with
  | nil => simp [splitFirstSlash]
  | cons c cs ih =>
    by_cases hc : c = '/'
    · subst hc
      simp [splitFirstSlash]
    · simp only [splitFirstSlash, if_neg hc]
      cases hsp : splitFirstSlash cs with
      | some pr =>
        obtain ⟨a, b⟩ := pr
        have hmem : '/' ∈ cs := by
          by_contra hnm
          rw [ih.mpr hnm] at hsp
          cases hsp
        simp [List.mem_cons, hmem]
      | none =>
        have hnm : '/' ∉ cs := ih.mp hsp
        simp [List.mem_cons, hnm, Ne.symm hc]

theorem splitFirstSlash_eq_some (s : List Char) :
    ∀ a b, splitFirstSlash s = some (a, b) ↔ s = a ++ '/' :: b ∧ '/' ∉ a := by
  induction s with
  | nil =>
    intro a b
    constructor
    · intro h
      cases h
    · rintro ⟨h1, _⟩
      exact absurd h1 (by simp)
  | cons c cs ih =>
    intro a b
    by_cases hc : c = '/'
    · subst hc
      simp only [splitFirstSlash, eq_self_iff_true, if_true]
      constructor
      · intro h
        rw [Option.some.injEq, Prod.mk.injEq] at h
        obtain ⟨ha, hb⟩ := h
        subst ha
        subst hb
        exact ⟨rfl, by simp⟩
      · rintro ⟨h1, h2⟩
        cases a with
        | nil =>
          simp only [List.nil_append, List.cons.injEq] at h1
          rw [h1.2]
        | cons x a' =>
          simp only [List.cons_append, List.cons.injEq] at h1
          exact absurd (by rw [h1.1]; exact List.mem_cons_self _ _) h2
    · simp only [splitFirstSlash, if_neg hc]
      cases hsp : splitFirstSlash cs with
      | some pr =>
        obtain ⟨a', b'⟩ := pr
        obtain ⟨hcs, hna⟩ := (ih a' b').mp hsp
        constructor
        · intro h
          rw [Option.some.injEq, Prod.mk.injEq] at h
          obtain ⟨ha, hb⟩ := h
          subst ha
          subst hb
          refine ⟨by rw [hcs]; rfl, ?_⟩
          intro hm
          rcases List.mem_cons.mp hm with he | hm2
          · exact hc he.symm
          · exact hna hm2
        · rintro ⟨h1, h2⟩
          cases a with
          | nil =>
            simp only [List.nil_append, List.cons.injEq] at h1
            exact absurd h1.1 hc
          | cons x a'' =>
            simp only [List.cons_append, List.cons.injEq] at h1
            obtain ⟨hx, hcs2⟩ := h1
            have h2' : '/' ∉ a'' := fun hm => h2 (List.mem_cons_of_mem _ hm)
            have := (ih a'' b).mpr ⟨hcs2, h2'⟩
            rw [hsp] at this
            rw [Option.some.injEq, Prod.mk.injEq] at this
            obtain ⟨haa, hbb⟩ := this
            rw [hx, haa, hbb]
      | none =>
        have hnm : '/' ∉ cs := (splitFirstSlash_eq_none cs).mp hsp
        constructor
        · intro h
          cases h
        · rintro ⟨h1, h2⟩
          cases a with
          | nil =>
            simp only [List.nil_append, List.cons.injEq] at h1
            exact absurd h1.1 hc
          | cons x a'' =>
            simp only [List.cons_append, List.cons.injEq] at h1
            exact absurd (h1.2 ▸ (by simp : '/' ∈ a'' ++ '/' :: b)) hnm

/-- C8: `parse_name` splits its input at the first `/` and returns the two
trimmed halves; it succeeds exactly on inputs that contain a `/` and whose
two halves are non-empty after trimming, and fails (raises) on all others. -/
theorem parse_name_spec (nm : List Char) (a b : List Char) :
    (parse_name nm = .ok (a, b) ↔
      ∃ x y, nm = x ++ '/' :: y ∧ '/' ∉ x ∧ a = pyStrip x ∧ b = pyStrip y ∧
        pyStrip x ≠ [] ∧ pyStrip y ≠ []) ∧
    ((∃ e, parse_name nm = .error e) ↔
      ('/' ∉ nm ∨ ∃ x y, nm = x ++ '/' :: y ∧ '/' ∉ x ∧
        (pyStrip x = [] ∨ pyStrip y = []))) := by
  cases hsp : splitFirstSlash nm with
  | none =>
    have hmem : '/' ∉ nm := (splitFirstSlash_eq_none nm).mp hsp
    constructor
    · constructor
      · intro h
        simp [parse_name, hsp] at h
      · rintro ⟨x, y, h1, -, -⟩
        exact absurd (h1 ▸ (by simp : '/' ∈ x ++ '/' :: y)) hmem
    · constructor
      · intro _
        exact Or.inl hmem
      · intro _
        exact ⟨"Name must be in author/name format", by simp [parse_name, hsp]⟩
  | some pr =>
    obtain ⟨x0, y0⟩ := pr
    obtain ⟨hnm, hnx⟩ := (splitFirstSlash_eq_some nm x0 y0).mp hsp
    have huniq : ∀ x y, nm = x ++ '/' :: y → '/' ∉ x → x = x0 ∧ y = y0 := by
      intro x y h1 h2
      have := (splitFirstSlash_eq_some nm x y).mpr ⟨h1, h2⟩
      rw [hsp, Option.some.injEq, Prod.mk.injEq] at this
      exact ⟨this.1.symm, this.2.symm⟩
    have hin : '/' ∈ nm := hnm ▸ (by simp : '/' ∈ x0 ++ '/' :: y0)
    by_cases hemp : pyStrip x0 = [] ∨ pyStrip y0 = []
    · constructor
      · constructor
        · intro h
          simp [parse_name, hsp, hemp] at h
        · rintro ⟨x, y, h1, h2, -, -, hx, hy⟩
          obtain ⟨hx0, hy0⟩ := huniq x y h1 h2
          subst hx0
          subst hy0
          rcases hemp with he | he
          · exact absurd he hx
          · exact absurd he hy
      · constructor
        · intro _
          exact Or.inr ⟨x0, y0, hnm, hnx, hemp⟩
        · intro _
          exact ⟨"Both author and name required", by simp [parse_name, hsp, hemp]⟩
    · have hok : parse_name nm = .ok (pyStrip x0, pyStrip y0) := by
        simp [parse_name, hsp, hemp]
      constructor
      · rw [hok]
        constructor
        · intro h
          rw [Except.ok.injEq, Prod.mk.injEq] at h
          exact ⟨x0, y0, hnm, hnx, h.1.symm, h.2.symm,
            fun he => hemp (Or.inl he), fun he => hemp (Or.inr he)⟩
        · rintro ⟨x, y, h1, h2, ha, hb, -, -⟩
          obtain ⟨hx0, hy0⟩ := huniq x y h1 h2
          subst hx0
          subst hy0
          rw [ha, hb]
      · constructor
        · rintro ⟨e, he⟩
          rw [hok] at he
          cases he
        · rintro (hno | ⟨x, y, h1, h2, hz⟩)
          · exact absurd hin hno
          · obtain ⟨hx0, hy0⟩ := huniq x y h1 h2
            subst hx0
            subst hy0
            exact absurd hz hemp

/-- Witness for C8 at a concrete input: parsing `" ab / cd "` succeeds and
returns the trimmed halves `"ab"` and `"cd"`. -/
theorem parse_name_spec_witness :
    ∃ x y, " ab / cd ".toList = x ++ '/' :: y ∧ '/' ∉ x ∧
      "ab".toList = pyStrip x ∧ "cd".toList = pyStrip y ∧
      pyStrip x ≠ [] ∧ pyStrip y ≠ [] :=
  ((parse_name_spec " ab / cd ".toList "ab".toList "cd".toList).1).mp rfl

/-! ### Deduplication (last write wins) -/

theorem dedupe_fold_lookup (l : List ServerEntry) :
    ∀ (d : List (String × ServerEntry)) (nm : String),
      lookupEntry (l.foldl (fun d s => dictSet d s.name s) d) nm =
        (l.reverse.find? (fun t => t.name == nm)).or (lookupEntry d nm) := by
  induction l with
  | nil =>
    intro d nm
    simp
  | cons s rest ih =>
    intro d nm
    simp only [List.foldl_cons, List.reverse_cons, List.find?_append]
    rw [ih]
    cases hn : rest.reverse.find? (fun t => t.name == nm) with
    | some t => simp
    | none =>
      simp only [Option.none_or]
      rw [lookupEntry_dictSet]
      by_cases he : s.name = nm
      · simp [List.find?, he]
      · have hb : (s.name == nm) = false := by simp [he]
        simp [List.find?, hb, he]

theorem mem_dictSet {α : Type} (d : List (String × α)) (k : String) (v : α)
    (p : String × α) (h : p ∈ dictSet d k v) : p ∈ d ∨ p = (k, v) := by
  induction d with
  | nil =>
    simp [dictSet] at h
    exact Or.inr h
  | cons q rest ih =>
    obtain ⟨k2, v2⟩ := q
    by_cases h2 : k2 = k
    · rw [dictSet, if_pos h2] at h
      rcases List.mem_cons.mp h with he | hm
      · exact Or.inr he
      · exact Or.inl (List.mem_cons_of_mem _ hm)
    · rw [dictSet, if_neg h2] at h
      rcases List.mem_cons.mp h with he | hm
      · exact Or.inl (he ▸ List.mem_cons_self _ _)
      · rcases ih hm with hi | hi
        · exact Or.inl (List.mem_cons_of_mem _ hi)
        · exact Or.inr hi

theorem dedupe_fold_own (l : List ServerEntry) :
    ∀ d : List (String × ServerEntry), (∀ p ∈ d, p.1 = p.2.name) →
      ∀ p ∈ l.foldl (fun d s => dictSet d s.name s) d, p.1 = p.2.name := by
  induction l with
  | nil =>
    intro d hd p hp
    exact hd p hp
  | cons s rest ih =>
    intro d hd p hp
    refine ih _ ?_ p hp
    intro q hq
    rcases mem_dictSet _ _ _ _ hq with hm | he
    · exact hd q hm
    · rw [he]

theorem dedupe_fold_keys_nodup (l : List ServerEntry) :
    ∀ d : List (String × ServerEntry), (d.map Prod.fst).Nodup →
      ((l.foldl (fun d s => dictSet d s.name s) d).map Prod.fst).Nodup := by
  induction l with
  | nil =>
    intro d hd
    exact hd
  | cons s rest ih =>
    intro d hd
    refine ih _ ?_
    rw [dictSet_keys]
    by_cases hm : s.name ∈ d.map Prod.fst
    · rw [if_pos hm]
      exact hd
    · rw [if_neg hm]
      rw [List.nodup_append]
      exact ⟨hd, List.nodup_singleton _, by simpa [List.disjoint_singleton] using hm⟩

theorem mem_map_snd_iff_lookup (d : List (String × ServerEntry))
    (hnd : (d.map Prod.fst).Nodup) (hown : ∀ p ∈ d, p.1 = p.2.name)
    (s : ServerEntry) :
    s ∈ d.map Prod.snd ↔ lookupEntry d s.name = some s := by
  induction d with
  | nil => simp [lookupEntry]
  | cons p rest ih =>
    obtain ⟨k, v⟩ := p
    have hk : k = v.name := hown (k, v) (List.mem_cons_self _ _)
    have hnd' : (rest.map Prod.fst).Nodup := (List.nodup_cons.mp hnd).2
    have hkn : k ∉ rest.map Prod.fst := (List.nodup_cons.mp hnd).1
    have hown' : ∀ p ∈ rest, p.1 = p.2.name :=
      fun p hp => hown p (List.mem_cons_of_mem _ hp)
    constructor
    · intro hm
      rcases List.mem_cons.mp hm with he | hm2
      · subst he
        simp [lookupEntry, hk]
      · have hlk := (ih hnd' hown').mp hm2
        have hne : ¬ k = s.name := by
          intro he
          apply hkn
          have : (lookupEntry rest s.name).isSome := by rw [hlk]; rfl
          rw [← he] at this
          exact (lookupEntry_isSome rest k).mp this
        simp [lookupEntry, hne, hlk]
    · intro hlk
      by_cases hke : k = s.name
      · rw [lookupEntry, if_pos hke] at hlk
        rw [Option.some.injEq] at hlk
        rw [hlk]
        exact List.mem_cons_self _ _
      · rw [lookupEntry, if_neg hke] at hlk
        exact List.mem_cons_of_mem _ ((ih hnd' hown').mpr hlk)

theorem dedupeDict_keys_nodup (l : List ServerEntry) :
    ((dedupeDict l).map Prod.fst).Nodup :=
  dedupe_fold_keys_nodup l [] (by simp)

theorem dedupeDict_own (l : List ServerEntry) :
    ∀ p ∈ dedupeDict l, p.1 = p.2.name :=
  dedupe_fold_own l [] (by simp)

theorem dedupeDict_lookup (l : List ServerEntry) (nm : String) :
    lookupEntry (dedupeDict l) nm = l.reverse.find? (fun t => t.name == nm) := by
  rw [dedupeDict, dedupe_fold_lookup]
  simp [lookupEntry]

/-- Membership in the deduplicated list is exactly being the last occurrence
of one's name in the input. -/
theorem dedupe_mem_iff (l : List ServerEntry) (s : ServerEntry) :
    s ∈ dedupe_last_wins l ↔
      l.reverse.find? (fun t => t.name == s.name) = some s := by
  rw [dedupe_last_wins,
    mem_map_snd_iff_lookup _ (dedupeDict_keys_nodup l) (dedupeDict_own l) s,
    dedupeDict_lookup]

theorem dedupe_names_eq_keys (l : List ServerEntry) :
    (dedupe_last_wins l).map ServerEntry.name = (dedupeDict l).map Prod.fst := by
  rw [dedupe_last_wins, List.map_map]
  refine List.map_congr_left fun p hp => ?_
  simpa using (dedupeDict_own l p hp).symm

theorem dedupe_names_nodup (l : List ServerEntry) :
    ((dedupe_last_wins l).map ServerEntry.name).Nodup := by
  rw [dedupe_names_eq_keys]
  exact dedupeDict_keys_nodup l

theorem dedupe_names_mem (l : List ServerEntry) (nm : String) :
    nm ∈ l.map ServerEntry.name ↔ nm ∈ (dedupe_last_wins l).map ServerEntry.name := by
  rw [dedupe_names_eq_keys, ← lookupEntry_isSome, dedupeDict_lookup,
    List.find?_isSome]
  constructor
  · intro hm
    obtain ⟨t, ht, he⟩ := List.mem_map.mp hm
    exact ⟨t, List.mem_reverse.mpr ht, by simp [he]⟩
  · rintro ⟨t, ht, he⟩
    exact List.mem_map.mpr ⟨t, List.mem_reverse.mp ht, by simpa using he⟩

/-- C3: when a compile run ends with an empty error list, its walk completed
with no errors and no conflicts, and the returned entry list is the
last-write-wins deduplication of the concatenated input: its names are
pairwise distinct, every name of the input survives (and no other), and each
surviving entry is the last occurrence of its name in registry-declaration
order. -/
theorem compile_success_unique_last_wins (env : Env) (regs : List RegistryDecl)
    (h : (compile_registry env regs).errors = []) :
    ((compile_registry env regs).servers.map ServerEntry.name).Nodup ∧
    ∃ allS, compile_loop env regs [] [] = .ok (allS, []) ∧
      check_conflicts allS = [] ∧
      (compile_registry env regs).servers = dedupe_last_wins allS ∧
      (∀ nm, nm ∈ allS.map ServerEntry.name ↔
        nm ∈ (compile_registry env regs).servers.map ServerEntry.name) ∧
      (∀ s : ServerEntry, s ∈ (compile_registry env regs).servers ↔
        allS.reverse.find? (fun t => t.name == s.name) = some s) := by
  cases hl : compile_loop env regs [] [] with
  | error errs =>
    exfalso
    apply compile_loop_error_ne_nil env regs [] [] errs hl
    unfold compile_registry at h
    rw [hl] at h
    exact h
  | ok pr =>
    obtain ⟨allS, errs⟩ := pr
    have hres : compile_registry env regs =
        (if (errs ++ check_conflicts allS).isEmpty then
          ⟨dedupe_last_wins allS, errs ++ check_conflicts allS⟩
        else ⟨[], errs ++ check_conflicts allS⟩ : CompileResult) := by
      unfold compile_registry
      rw [hl]
    have hE : errs ++ check_conflicts allS = [] := by
      by_cases he : ((errs ++ check_conflicts allS).isEmpty : Bool) = true
      · exact List.isEmpty_iff.mp he
      · rw [hres, if_neg he] at h
        exact absurd ((List.isEmpty_iff).mpr h) he
    obtain ⟨he1, he2⟩ := List.append_eq_nil.mp hE
    have hsrv : (compile_registry env regs).servers = dedupe_last_wins allS := by
      rw [hres, if_pos (List.isEmpty_iff.mpr hE)]
    refine ⟨by rw [hsrv]; exact dedupe_names_nodup allS,
      allS, by rw [he1], he2, hsrv, ?_, ?_⟩
    · intro nm
      rw [hsrv]
      exact dedupe_names_mem allS nm
    · intro s
      rw [hsrv]
      exact dedupe_mem_iff allS s

/-- Witness for C3 at a concrete input: compiling one private registry with a
single loadable descriptor ends with no errors, and the theorem's
characterization holds there. -/
theorem compile_success_unique_last_wins_witness :
    ((compile_registry envGoodBad
        [RegistryDecl.priv "private" ["mcps/good/server.json"]]).servers.map
          ServerEntry.name).Nodup ∧
    ∃ allS, compile_loop envGoodBad
        [RegistryDecl.priv "private" ["mcps/good/server.json"]] [] [] =
          .ok (allS, []) ∧
      check_conflicts allS = [] ∧
      (compile_registry envGoodBad
        [RegistryDecl.priv "private" ["mcps/good/server.json"]]).servers =
          dedupe_last_wins allS ∧
      (∀ nm, nm ∈ allS.map ServerEntry.name ↔
        nm ∈ (compile_registry envGoodBad
          [RegistryDecl.priv "private" ["mcps/good/server.json"]]).servers.map
            ServerEntry.name) ∧
      (∀ s : ServerEntry, s ∈ (compile_registry envGoodBad
          [RegistryDecl.priv "private" ["mcps/good/server.json"]]).servers ↔
        allS.reverse.find? (fun t => t.name == s.name) = some s) :=
  compile_success_unique_last_wins envGoodBad
    [RegistryDecl.priv "private" ["mcps/good/server.json"]] rfl

/-! ### Fetch passes as filter-maps -/

theorem patternPass_eq (net : Network) (src : String)
    (pats : List (String × String)) (listing : List JValue) :
    patternPass net src pats listing =
      (listing.filterMap (fun d => (firstMatch pats (serverNameOf d)).map
          (fun v => mkVersionedEntry net src (serverNameOf d) v)),
       listing.filterMap (fun d => (firstMatch pats (serverNameOf d)).map
          (fun v => Request.version (serverNameOf d) v))) := by
  induction listing with
  | nil => rfl
  | cons d rest ih =>
    simp only [patternPass, ih, List.filterMap_cons]
    cases firstMatch pats (serverNameOf d) <;> simp

theorem exactPass_eq (net : Network) (src : String) (excl : List String)
    (l : List (String × String)) :
    exactPass net src excl l =
      (l.filterMap (fun p => if p.1 ∈ excl then none else
          some ⟨p.1, serverVersionOf (net.serverVersion p.1 p.2),
            net.serverVersion p.1 p.2, src⟩),
       l.filterMap (fun p => if p.1 ∈ excl then none else
          some (Request.version p.1 p.2))) := by
  induction l with
  | nil => rfl
  | cons p rest ih =>
    obtain ⟨nm, v⟩ := p
    simp only [exactPass, ih, List.filterMap_cons]
    by_cases hm : nm ∈ excl <;> simp [hm]

theorem allPass_eq (src : String) (excl : List String) (listing : List JValue) :
    allPass src excl listing =
      listing.filterMap (fun d =>
        if serverNameOf d ∈ excl then none
        else some ⟨serverNameOf d, serverVersionOf d, d, src⟩) := by
  induction listing with
  | nil => rfl
  | cons d rest ih =>
    simp only [allPass, ih, List.filterMap_cons, serverNameOf, serverVersionOf]
    by_cases hm : getStrD (getObjD d "server") "name" ∈ excl <;> simp [hm]

/-- C5: the author-wildcard pass streams the server list exactly once (a
single `listAll` request heads the request log), and issues one
version-resolution request per streamed server matching a registered prefix,
with the first matching pattern's version — never two for one streamed
server; produced entry names are the matching streamed names; on the
concrete `acme/*` example over `acme/foo`, `acme/bar`, `other/baz` the
result names are exactly `acme/foo, acme/bar`. -/
theorem fetch_wildcard_resolution (net : Network) (rn url : String)
    (m : List (String × String)) (excl : List String)
    (hpat : (splitPatterns m).1 ≠ []) :
    (fetch_from_public_registry net ⟨rn, url, .map m, excl⟩).2 =
      Request.listAll ::
        (net.serverList.filterMap (fun d =>
          (firstMatch (splitPatterns m).1 (serverNameOf d)).map
            (fun v => Request.version (serverNameOf d) v)) ++
        (splitPatterns m).2.filterMap (fun p =>
          if p.1 ∈ excl then none else some (Request.version p.1 p.2))) ∧
    (fetch_from_public_registry net ⟨rn, url, .map m, excl⟩).1 =
      net.serverList.filterMap (fun d =>
        (firstMatch (splitPatterns m).1 (serverNameOf d)).map
          (fun v => mkVersionedEntry net rn (serverNameOf d) v)) ++
      (splitPatterns m).2.filterMap (fun p =>
        if p.1 ∈ excl then none else
          some ⟨p.1, serverVersionOf (net.serverVersion p.1 p.2),
            net.serverVersion p.1 p.2, rn⟩) ∧
    (patternPass net rn (splitPatterns m).1 net.serverList).1.map ServerEntry.name =
      net.serverList.filterMap (fun d =>
        (firstMatch (splitPatterns m).1 (serverNameOf d)).map
          (fun _ => serverNameOf d)) ∧
    (fetch_from_public_registry netAcme cfgAcme).1.map ServerEntry.name =
      ["acme/foo", "acme/bar"] := by
  have hpe : ((splitPatterns m).1).isEmpty = false := by
    cases hp : (splitPatterns m).1 with
    | nil => exact absurd hp hpat
    | cons a l => rfl
  refine ⟨?_, ?_, ?_, by rfl⟩
  · simp only [fetch_from_public_registry, hpe, Bool.false_eq_true, if_false,
      patternPass_eq, exactPass_eq, List.cons_append]
  · simp only [fetch_from_public_registry, hpe, Bool.false_eq_true, if_false,
      patternPass_eq, exactPass_eq]
  · rw [patternPass_eq]
    simp only [List.map_filterMap, Option.map_map, mkVersionedEntry]
    refine congrArg (fun f => List.filterMap f net.serverList) ?_
    funext d
    cases firstMatch (splitPatterns m).1 (serverNameOf d) <;> rfl

/-- Witness for C5 at the concrete input of the claim: the `acme/*` pattern
over the `netAcme` listing. -/
theorem fetch_wildcard_resolution_witness :
    (fetch_from_public_registry netAcme
        ⟨"pub", "https://registry.example", .map [("acme/*", "latest")], []⟩).2 =
      Request.listAll ::
        (netAcme.serverList.filterMap (fun d =>
          (firstMatch (splitPatterns [("acme/*", "latest")]).1 (serverNameOf d)).map
            (fun v => Request.version (serverNameOf d) v)) ++
        (splitPatterns [("acme/*", "latest")]).2.filterMap (fun p =>
          if p.1 ∈ ([] : List String) then none
          else some (Request.version p.1 p.2))) ∧
    (fetch_from_public_registry netAcme
        ⟨"pub", "https://registry.example", .map [("acme/*", "latest")], []⟩).1 =
      netAcme.serverList.filterMap (fun d =>
        (firstMatch (splitPatterns [("acme/*", "latest")]).1 (serverNameOf d)).map
          (fun v => mkVersionedEntry netAcme "pub" (serverNameOf d) v)) ++
      (splitPatterns [("acme/*", "latest")]).2.filterMap (fun p =>
        if p.1 ∈ ([] : List String) then none else
          some ⟨p.1, serverVersionOf (netAcme.serverVersion p.1 p.2),
            netAcme.serverVersion p.1 p.2, "pub"⟩) ∧
    (patternPass netAcme "pub" (splitPatterns [("acme/*", "latest")]).1
        netAcme.serverList).1.map ServerEntry.name =
      netAcme.serverList.filterMap (fun d =>
        (firstMatch (splitPatterns [("acme/*", "latest")]).1 (serverNameOf d)).map
          (fun _ => serverNameOf d)) ∧
    (fetch_from_public_registry netAcme cfgAcme).1.map ServerEntry.name =
      ["acme/foo", "acme/bar"] :=
  fetch_wildcard_resolution netAcme "pub" "https://registry.example"
    [("acme/*", "latest")] [] (by decide)

/-- C9: the author-wildcard pass never consults the exclude set: with only
wildcard keys configured, the fetch result is identical for any two exclude
sets, and concretely an excluded name matching a pattern is still
version-resolved and still yields an entry; by contrast the `"*"` pass and
the exact-name pass drop excluded names (their filter-map characterizations
test membership in `exclude`). -/
theorem fetch_wildcard_ignores_exclude (net : Network) (rn url : String)
    (m : List (String × String)) (excl1 excl2 : List String)
    (hex : (splitPatterns m).2 = []) :
    fetch_from_public_registry net ⟨rn, url, .map m, excl1⟩ =
      fetch_from_public_registry net ⟨rn, url, .map m, excl2⟩ ∧
    (∀ (src : String) (excl : List String) (listing : List JValue),
      allPass src excl listing =
        listing.filterMap (fun d =>
          if serverNameOf d ∈ excl then none
          else some ⟨serverNameOf d, serverVersionOf d, d, src⟩)) ∧
    (∀ (net2 : Network) (src : String) (excl : List String)
        (exacts : List (String × String)),
      exactPass net2 src excl exacts =
        (exacts.filterMap (fun p => if p.1 ∈ excl then none else
            some ⟨p.1, serverVersionOf (net2.serverVersion p.1 p.2),
              net2.serverVersion p.1 p.2, src⟩),
         exacts.filterMap (fun p => if p.1 ∈ excl then none else
            some (Request.version p.1 p.2)))) ∧
    "acme/foo" ∈ (fetch_from_public_registry netAcme cfgAcmeExcl).1.map
      ServerEntry.name ∧
    Request.version "acme/foo" "latest" ∈
      (fetch_from_public_registry netAcme cfgAcmeExcl).2 := by
  refine ⟨?_, allPass_eq, fun net2 => exactPass_eq net2, ?_, ?_⟩
  · simp [fetch_from_public_registry, hex, exactPass]
  · show "acme/foo" ∈ ["acme/foo", "acme/bar"]
    exact List.mem_cons_self _ _
  · show Request.version "acme/foo" "latest" ∈
      [Request.listAll, Request.version "acme/foo" "latest",
        Request.version "acme/bar" "latest"]
    exact List.mem_cons_of_mem _ (List.mem_cons_self _ _)

/-- Witness for C9 at the concrete input of the claim: only the wildcard key
`acme/*`, with exclude sets `["acme/foo"]` versus `[]`. -/
theorem fetch_wildcard_ignores_exclude_witness :
    fetch_from_public_registry netAcme
        ⟨"pub", "https://registry.example", .map [("acme/*", "latest")],
          ["acme/foo"]⟩ =
      fetch_from_public_registry netAcme
        ⟨"pub", "https://registry.example", .map [("acme/*", "latest")], []⟩ ∧
    (∀ (src : String) (excl : List String) (listing : List JValue),
      allPass src excl listing =
        listing.filterMap (fun d =>
          if serverNameOf d ∈ excl then none
          else some ⟨serverNameOf d, serverVersionOf d, d, src⟩)) ∧
    (∀ (net2 : Network) (src : String) (excl : List String)
        (exacts : List (String × String)),
      exactPass net2 src excl exacts =
        (exacts.filterMap (fun p => if p.1 ∈ excl then none else
            some ⟨p.1, serverVersionOf (net2.serverVersion p.1 p.2),
              net2.serverVersion p.1 p.2, src⟩),
         exacts.filterMap (fun p => if p.1 ∈ excl then none else
            some (Request.version p.1 p.2)))) ∧
    "acme/foo" ∈ (fetch_from_public_registry netAcme cfgAcmeExcl).1.map
      ServerEntry.name ∧
    Request.version "acme/foo" "latest" ∈
      (fetch_from_public_registry netAcme cfgAcmeExcl).2 :=
  fetch_wildcard_ignores_exclude netAcme "pub" "https://registry.example"
    [("acme/*", "latest")] ["acme/foo"] [] (by decide)

/-! ### Serializer: timestamp and wrapping -/

theorem lookupPairs_dictSet (kvs : List (String × JValue)) (k : String)
    (v : JValue) (k' : String) :
    lookupPairs (dictSet kvs k v) k' = if k = k' then some v else lookupPairs kvs k' := by
  induction kvs with
  | nil => simp [dictSet, lookupPairs]
  | cons p rest ih =>
    obtain ⟨k2, v2⟩ := p
    by_cases h2 : k2 = k
    · subst h2
      by_cases hk : k2 = k'
      · simp [dictSet, lookupPairs, hk]
      · simp [dictSet, lookupPairs, hk]
    · by_cases hk : k2 = k'
      · have h1 : ¬ k = k' := fun hh => h2 (hk.trans hh.symm)
        have h2' : ¬ k' = k := fun hh => h2 (hk.trans hh)
        simp [dictSet, lookupPairs, h2, hk, h1, h2']
      · simp [dictSet, lookupPairs, h2, hk, ih]

theorem digitChar_ne_plus (n : Nat) : digitChar n ≠ '+' := by
  unfold digitChar
  split <;> decide

theorem digitsOf_ne_plus (n : Nat) : '+' ∉ digitsOf n := by
  induction n using Nat.strong_induction_on with
  | _ n ih =>
    rw [digitsOf]
    split
    · intro hm
      rcases List.mem_singleton.mp hm with he
      exact digitChar_ne_plus n he.symm
    · intro hm
      rcases List.mem_append.mp hm with hl | hr
      · exact ih (n / 10) (Nat.div_lt_self (by omega) (by omega)) hl
      · exact digitChar_ne_plus n (List.mem_singleton.mp hr).symm

theorem pad2_ne_plus (n : Nat) : '+' ∉ pad2 n := by
  unfold pad2
  split
  · intro hm
    rcases List.mem_cons.mp hm with he | hr
    · cases he
    · exact digitsOf_ne_plus n hr
  · exact digitsOf_ne_plus n

theorem pad4_ne_plus (n : Nat) : '+' ∉ pad4 n := by
  unfold pad4
  intro hm
  rcases List.mem_append.mp hm with hl | hr
  · exact absurd (List.eq_of_mem_replicate hl) (by decide)
  · exact digitsOf_ne_plus n hr

theorem isoCore_ne_plus (t : UTCTime) : '+' ∉ isoCore t := by
  unfold isoCore
  intro hm
  simp only [List.mem_append, List.mem_cons] at hm
  rcases hm with ((((h | h) | h) | h) | h) | h
  · exact pad4_ne_plus t.year h
  · rcases h with h | h
    · cases h
    · exact pad2_ne_plus t.month h
  · rcases h with h | h
    · cases h
    · exact pad2_ne_plus t.day h
  · rcases h with h | h
    · cases h
    · exact pad2_ne_plus t.hour h
  · rcases h with h | h
    · cases h
    · exact pad2_ne_plus t.minute h
  · rcases h with h | h
    · cases h
    · exact pad2_ne_plus t.second h

theorem replaceAll_of_no_plus (a : List Char) (h : '+' ∉ a) :
    replaceAll plusOffset ['Z'] (a ++ plusOffset) = a ++ ['Z'] := by
  induction a with
  | nil =>
    rw [List.nil_append, List.nil_append]
    rw [show plusOffset = '+' :: ['0', '0', ':', '0', '0'] from rfl]
    rw [replaceAll]
    rw [dif_pos (by constructor <;> decide)]
    show ['Z'] ++ replaceAll ('+' :: ['0', '0', ':', '0', '0']) ['Z'] [] = ['Z']
    rw [replaceAll]
    rfl
  | cons c a' ih =>
    have hc : c ≠ '+' := fun he => h (he ▸ List.mem_cons_self _ _)
    have h' : '+' ∉ a' := fun hm => h (List.mem_cons_of_mem _ hm)
    rw [List.cons_append, replaceAll]
    rw [dif_neg ?hneg]
    · rw [ih h', List.cons_append]
    case hneg =>
      rintro ⟨-, hpre⟩
      rw [show plusOffset = '+' :: ['0', '0', ':', '0', '0'] from rfl] at hpre
      rw [List.isPrefixOf] at hpre
      simp only [Bool.and_eq_true, beq_iff_eq] at hpre
      exact hc hpre.1.symm

/-- The claim C6 and C7 timestamp fact: replacing the `+00:00` offset yields
the core time text with a single `Z` appended. -/
theorem timestampChars_eq (t : UTCTime) :
    timestampChars t = isoCore t ++ ['Z'] :=
  replaceAll_of_no_plus (isoCore t) (isoCore_ne_plus t)

theorem hasKey_obj (j : JValue) (k : String) (h : j.hasKey k = true) :
    ∃ kvs, j = .obj kvs := by
  cases j with
  | obj kvs => exact ⟨kvs, rfl⟩
  | str s => simp [JValue.hasKey, JValue.getKey] at h
  | num n => simp [JValue.hasKey, JValue.getKey] at h
  | bool b => simp [JValue.hasKey, JValue.getKey] at h
  | null => simp [JValue.hasKey, JValue.getKey] at h
  | arr l => simp [JValue.hasKey, JValue.getKey] at h

/-- C6: the per-entry wrapping rule of `write_compiled_registry`.  The whole
document stamps every entry with the one timestamp string of the run; an
entry whose data already has a `server` key passes through with only
`_source` set to its source (every other key unchanged); a flattened entry
is wrapped with the `_meta` block (`status: active`, `publishedAt` and
`updatedAt` equal to the run timestamp, `isLatest: true`); and that
timestamp is the UTC second-precision time with a literal `Z` suffix in
place of the `+00:00` offset. -/
theorem write_wrap_rule (t : UTCTime) (rn : String) (s : ServerEntry)
    (servers : List ServerEntry) :
    (write_compiled_registry t rn servers =
      .obj [("servers", .arr (servers.map (wrap_server rn (timestampZ t)))),
            ("metadata", .obj [("count", .num servers.length)])]) ∧
    (s.data.hasKey "server" = true →
      wrap_server rn (timestampZ t) s = s.data.setKey "_source" (.str s.source) ∧
      (s.data.setKey "_source" (.str s.source)).getKey "_source" =
        some (.str s.source) ∧
      (∀ k, k ≠ "_source" →
        (s.data.setKey "_source" (.str s.source)).getKey k = s.data.getKey k)) ∧
    (s.data.hasKey "server" = false →
      wrap_server rn (timestampZ t) s =
        .obj [("server", s.data),
              ("_meta", .obj [(rn, .obj
                [("status", .str "active"),
                 ("publishedAt", .str (timestampZ t)),
                 ("updatedAt", .str (timestampZ t)),
                 ("isLatest", .bool true)])]),
              ("_source", .str s.source)]) ∧
    timestampChars t = isoCore t ++ ['Z'] := by
  refine ⟨rfl, ?_, ?_, timestampChars_eq t⟩
  · intro h
    obtain ⟨kvs, hk⟩ := hasKey_obj _ _ h
    refine ⟨by simp [wrap_server, h], ?_, ?_⟩
    · rw [hk]
      simp [JValue.setKey, JValue.getKey, lookupPairs_dictSet]
    · intro k hne
      rw [hk]
      simp only [JValue.setKey, JValue.getKey]
      rw [lookupPairs_dictSet]
      rw [if_neg (fun hh => hne hh.symm)]
  · intro h
    simp [wrap_server, h]

/-- C7: the serialized document is `{servers: wrapped entries in input order,
metadata: {count: N}}` with `N` the number of entries, so re-reading the
document (modelled at the parsed-JSON level) reproduces
`metadata.count = len(servers)`. -/
theorem write_output_shape (t : UTCTime) (rn : String)
    (servers : List ServerEntry) :
    ∃ ws : List JValue,
      (write_compiled_registry t rn servers).getKey "servers" = some (.arr ws) ∧
      ws = servers.map (wrap_server rn (timestampZ t)) ∧
      (write_compiled_registry t rn servers).getKey "metadata" =
        some (.obj [("count", .num servers.length)]) ∧
      ((write_compiled_registry t rn servers).getKey "metadata").bind
        (fun mv => mv.getKey "count") = some (.num ws.length) ∧
      ws.length = servers.length := by
  refine ⟨servers.map (wrap_server rn (timestampZ t)), ?_, rfl, ?_, ?_, by simp⟩
  · simp [write_compiled_registry, JValue.getKey, lookupPairs]
  · simp [write_compiled_registry, JValue.getKey, lookupPairs]
  · simp [write_compiled_registry, JValue.getKey, lookupPairs]
